import Mathlib

/-!
# Verification of the vector sequencing core of `vecsort.c`

Shallow embedding of the segment store, greedy sequencer, transit refiner and
metrics of `src/vecsort.c`.  Coordinates are modelled as rationals (the C code
uses `double`; we model exact real arithmetic).  Comparisons that the C code
performs on `sqrt`-lengths are modelled on the squared lengths, which is
order- and zero-preserving (`sqrt` is strictly monotone on nonnegatives and
`sqrt d = 0 ↔ d = 0`); sums of lengths, where the actual `sqrt` values matter,
are modelled over `ℝ` with `Real.sqrt`.

Pointer-linked lists are modelled as `List vector_t`; unlinking a node is
`List.eraseIdx` at the node's position, and the `NULL` return / `abort()`
paths are modelled with `Option`.
-/

/-- The `vector_t` struct of `vecsort.c` (the `next`/`prev` links are the list
structure itself). A directed segment from A = (x1,y1) to B = (x2,y2). -/
structure vector_t where
  x1 : ℚ
  y1 : ℚ
  x2 : ℚ
  y2 : ℚ
deriving DecidableEq

/-- The `1e9` seed of the best-distance trackers in `vector_find_closest`
and `vector_refine`. -/
def bigR : ℚ := 1000000000

/-- The `eps = 1e-8` tolerance of `fpeq`. -/
def eps : ℚ := 1 / 100000000

/-- The square `eps * eps`: a squared length `d` satisfies `sqrt d < eps` iff `d < eps2`,
used to model `fpeq(transit_len, 0)` on squared transit lengths. -/
def eps2 : ℚ := eps * eps

/-- The `fpeq` helper of `vecsort.c`: `fabs(x-y) < 1e-8`. -/
def fpeq (x y : ℚ) : Prop := |x - y| < eps

instance (x y : ℚ) : Decidable (fpeq x y) :=
  inferInstanceAs (Decidable (|x - y| < eps))

/-- Squared distance `dx*dx + dy*dy` between `(cx,cy)` and `(x,y)`, as computed
at each comparison site of `vecsort.c`. -/
def dist2 (cx cy x y : ℚ) : ℚ := (cx - x) * (cx - x) + (cy - y) * (cy - y)

/-- The reversal performed by `vector_find_closest` when the best match was on
the `(x2,y2)` endpoint: swap `x1/x2` and `y1/y2`. -/
def reverseSeg (v : vector_t) : vector_t := ⟨v.x2, v.y2, v.x1, v.y1⟩

/-- Squared distance from `(cx,cy)` to one endpoint of `s`: the B endpoint when
`r = true`, the A endpoint when `r = false`. -/
def endDist (cx cy : ℚ) (s : vector_t) (r : Bool) : ℚ :=
  if r then dist2 cx cy s.x2 s.y2 else dist2 cx cy s.x1 s.y1

/-- Scan position of the endpoint candidate `(j, r)` in the scan order of
`vector_find_closest`: segments in store order, and within one segment the A
endpoint is examined before the B endpoint. -/
def candPos (j : Nat) (r : Bool) : Nat := 2 * j + (if r then 1 else 0)

/-- The direction-insensitive endpoint pair of a segment, as a two-element
multiset. -/
def epair (s : vector_t) : Multiset (ℚ × ℚ) := {(s.x1, s.y1), (s.x2, s.y2)}

/-- The `vector_create` routine of `vecsort.c`: scan the store; return it unchanged on an
exact duplicate, a reversed duplicate, or (inside the scan loop, exactly as in
the source) a degenerate input; otherwise append the new segment at the end. -/
def vector_create : List vector_t → ℚ → ℚ → ℚ → ℚ → List vector_t
  | [], x1, y1, x2, y2 => [⟨x1, y1, x2, y2⟩]
  | p :: rest, x1, y1, x2, y2 =>
    if fpeq p.x1 x1 ∧ fpeq p.y1 y1 ∧ fpeq p.x2 x2 ∧ fpeq p.y2 y2 then p :: rest
    else if fpeq p.x1 x2 ∧ fpeq p.y1 y2 ∧ fpeq p.x2 x1 ∧ fpeq p.y2 y1 then p :: rest
    else if fpeq x1 x2 ∧ fpeq y1 y2 then p :: rest
    else p :: vector_create rest x1 y1 x2 y2

/-- The scan loop of `vector_find_closest`: for each node, first compare the
squared distance to its A endpoint against the running best, then to its B
endpoint, updating on strictly smaller distances only.  `i` is the position of
the node at the head of the remaining list, `bd` the running best distance,
`best` the running best `(position, reversed?)` match. -/
def findBestGo (cx cy : ℚ) : List vector_t → Nat → ℚ → Option (Nat × Bool) → Option (Nat × Bool)
  | [], _, _, best => best
  | v :: rest, i, bd, best =>
    let d1 := dist2 cx cy v.x1 v.y1
    let bd1 := if d1 < bd then d1 else bd
    let best1 := if d1 < bd then some (i, false) else best
    let d2 := dist2 cx cy v.x2 v.y2
    let bd2 := if d2 < bd1 then d2 else bd1
    let best2 := if d2 < bd1 then some (i, true) else best1
    findBestGo cx cy rest (i + 1) bd2 best2

/-- The selection phase of `vector_find_closest`: scan with `best_dist`
seeded to `1e9` and `best` to `NULL`. -/
def findBest (l : List vector_t) (cx cy : ℚ) : Option (Nat × Bool) :=
  findBestGo cx cy l 0 bigR none

/-- The `vector_find_closest` routine of `vecsort.c`: find the best endpoint match, unlink
the matched node from the store, and reverse it when the match was on the B
endpoint.  `none` models the `NULL` return. -/
def vector_find_closest (l : List vector_t) (cx cy : ℚ) : Option (vector_t × List vector_t) :=
  match findBest l cx cy with
  | none => none
  | some (i, rev) =>
    match l.get? i with
    | none => none
    | some w => some (if rev then reverseSeg w else w, l.eraseIdx i)

/-- The `while (*vectors)` loop of `vector_optimize`, with fuel (the loop
removes one store element per iteration, so `store.length` fuel is exact).
`none` models the `abort()` on a `NULL` return from `vector_find_closest`
over a non-empty store. -/
def vector_optimize_go : Nat → List vector_t → ℚ → ℚ → Option (List vector_t × ℚ × ℚ)
  | _, [], cx, cy => some ([], cx, cy)
  | 0, _ :: _, _, _ => none
  | n + 1, v :: vs, cx, cy =>
    match vector_find_closest (v :: vs) cx cy with
    | none => none
    | some (w, rest) =>
      match vector_optimize_go n rest w.x2 w.y2 with
      | none => none
      | some (chain, ex, ey) => some (w :: chain, ex, ey)

/-- The `vector_optimize` routine of `vecsort.c`: repeatedly extract the closest segment,
append it to the chain, and advance the current point to its B endpoint;
returns the chain and the final `(*cx_ptr, *cy_ptr)` position. -/
def vector_optimize (l : List vector_t) (cx cy : ℚ) : Option (List vector_t × ℚ × ℚ) :=
  vector_optimize_go l.length l cx cy

/-- A segment has some endpoint within the `1e9` squared-distance search
radius of `(cx,cy)`. -/
def withinRadius (s : vector_t) (cx cy : ℚ) : Prop :=
  dist2 cx cy s.x1 s.y1 < bigR ∨ dist2 cx cy s.x2 s.y2 < bigR

instance (s : vector_t) (cx cy : ℚ) : Decidable (withinRadius s cx cy) :=
  inferInstanceAs (Decidable (_ ∨ _))

/-- The hypothesis of the sequencer-completeness claim: at every step of the
greedy run, every remaining store member has some endpoint within the search
radius of the running position.  (When this holds, `vector_find_closest` never
returns `none`, so the branch value chosen for that unreachable case is
irrelevant.) -/
def runSafe : Nat → List vector_t → ℚ → ℚ → Bool
  | _, [], _, _ => true
  | 0, _ :: _, _, _ => false
  | n + 1, v :: vs, cx, cy =>
    ((v :: vs).all fun s => decide (withinRadius s cx cy)) &&
      (match vector_find_closest (v :: vs) cx cy with
       | none => true
       | some (w, rest) => runSafe n rest w.x2 w.y2)

/-- The longest-transit scan of `vector_refine` (step 1): walk the chain from
the running position, and record the position of the segment with the maximal
transit to its A endpoint, skipping transits with `fpeq(transit_len, 0)`.  The
source compares `sqrt`-lengths (`max_transit < transit_len`); squared lengths
compare identically, and `fpeq(sqrt d, 0) ↔ d < eps2`, so the scan is carried
out on squared lengths (`maxd` holds the squared running maximum, seeded by
`0 = 0 * 0`). -/
def longestScan : List vector_t → ℚ → ℚ → Nat → ℚ → Option Nat → Option Nat
  | [], _, _, _, _, best => best
  | v :: rest, cx, cy, i, maxd, best =>
    let d := dist2 cx cy v.x1 v.y1
    if ¬ d < eps2 ∧ maxd < d then longestScan rest v.x2 v.y2 (i + 1) d (some i)
    else longestScan rest v.x2 v.y2 (i + 1) maxd best

/-- Step 1 of `vector_refine`: position of the longest-transit segment, or
`none` (the `transit_v == NULL` early return) when no positive transit
exists. -/
def findLongestTransit (chain : List vector_t) (cx cy : ℚ) : Option Nat :=
  longestScan chain cx cy 0 0 none

/-- Squared distance from the B endpoint of a prefix candidate `s` to the A
endpoint `(tax,tay)` of the longest-transit segment, as computed in step 2 of
`vector_refine`. -/
def dPrior (tax tay : ℚ) (s : vector_t) : ℚ := dist2 s.x2 s.y2 tax tay

/-- The prefix scan of `vector_refine` (step 2): `if (min_dist < dist)
continue; min_dist = dist; closest = v;` — the candidate is skipped only when
its distance is strictly greater than the running minimum (seeded `1e9`), so
an equally-close later candidate replaces the recorded one. -/
def closestScan (tax tay : ℚ) : List vector_t → Nat → ℚ → Option Nat → Option Nat
  | [], _, _, best => best
  | v :: rest, i, md, best =>
    let d := dPrior tax tay v
    if md < d then closestScan tax tay rest (i + 1) md best
    else closestScan tax tay rest (i + 1) d (some i)

/-- Step 2 of `vector_refine`: scan the chain prefix strictly before the
longest-transit segment at position `t` for the closest prior B endpoint;
`none` models the `closest == NULL` early return. -/
def findClosestPrior (chain : List vector_t) (t : Nat) : Option Nat :=
  match chain.get? t with
  | none => none
  | some tv => closestScan tv.x1 tv.y1 (chain.take t) 0 bigR none

/-- The walk of `vector_transit_len` of `vecsort.c`: walk the chain from the origin
`(lx,ly) = (0,0)`, summing the `sqrt` transit lengths, skipping transits whose
length is exactly zero (`transit_len != 0`; for a nonnegative radicand,
`sqrt d ≠ 0 ↔ d ≠ 0`, so the test is carried out on the squared length). -/
noncomputable def vector_transit_len_go : List vector_t → ℚ → ℚ → ℝ
  | [], _, _ => 0
  | v :: rest, lx, ly =>
    (if dist2 lx ly v.x1 v.y1 ≠ 0 then Real.sqrt ((dist2 lx ly v.x1 v.y1 : ℚ) : ℝ) else 0) +
      vector_transit_len_go rest v.x2 v.y2

/-- The `vector_transit_len` routine of `vecsort.c` (starts from `lx = ly = 0`). -/
noncomputable def vector_transit_len (l : List vector_t) : ℝ :=
  vector_transit_len_go l 0 0

/-- The record of counts and lengths accumulated by `vector_stats`. -/
structure StatsResult where
  cuts : Nat
  cut_len_sum : ℝ
  transits : Nat
  transit_len_sum : ℝ
deriving Inhabited

/-- The walk of `vector_stats`, threading the previous B endpoint `(lx,ly)`:
each node contributes its transit length (when nonzero) to
`transits`/`transit_len_sum` and its own A→B cut length (when nonzero) to
`cuts`/`cut_len_sum`.  As in `vector_transit_len_go`, the `!= 0` tests on
`sqrt`-lengths are carried out on the squared lengths. -/
noncomputable def vector_stats_go : List vector_t → ℚ → ℚ → StatsResult
  | [], _, _ => ⟨0, 0, 0, 0⟩
  | v :: rest, lx, ly =>
    let s := vector_stats_go rest v.x2 v.y2
    let td2 := dist2 lx ly v.x1 v.y1
    let cd2 := dist2 v.x1 v.y1 v.x2 v.y2
    { cuts := (if cd2 ≠ 0 then 1 else 0) + s.cuts
      cut_len_sum := (if cd2 ≠ 0 then Real.sqrt ((cd2 : ℚ) : ℝ) else 0) + s.cut_len_sum
      transits := (if td2 ≠ 0 then 1 else 0) + s.transits
      transit_len_sum := (if td2 ≠ 0 then Real.sqrt ((td2 : ℚ) : ℝ) else 0) + s.transit_len_sum }

/-- The `vector_stats` routine of `vecsort.c` (starts its walk from `lx = ly = 0`). -/
noncomputable def vector_stats (l : List vector_t) : StatsResult :=
  vector_stats_go l 0 0

/-- The `vector_refine` routine of `vecsort.c`.  Step 1 finds the longest-transit segment
(else return `0` with no mutation); step 2 finds the closest prior B endpoint
(else return `0` with no mutation); steps 3–4 unlink the transit segment,
relink it right after the closest prior segment, and greedily re-sequence
exactly the suffix now following it, seeded with its B endpoint; step 5
returns the reduction in total transit length, and the out-parameters
`(*cx_ptr, *cy_ptr)` receive the re-sequencing's final position.  `none`
models the `abort()` inside the nested `vector_optimize` call. -/
noncomputable def vector_refine (chain : List vector_t) (cx cy : ℚ) :
    Option (List vector_t × ℝ × ℚ × ℚ) :=
  match findLongestTransit chain cx cy with
  | none => some (chain, 0, cx, cy)
  | some t =>
    match findClosestPrior chain t, chain.get? t with
    | some c, some tv =>
      match vector_optimize ((chain.eraseIdx t).drop (c + 1)) tv.x2 tv.y2 with
      | none => none
      | some (suffixChain, ex2, ey2) =>
        let newChain := chain.take (c + 1) ++ tv :: suffixChain
        some (newChain, vector_transit_len chain - vector_transit_len newChain, ex2, ey2)
    | _, _ => some (chain, 0, cx, cy)

/-- The hypothesis of the refine-no-op claim: every transit of the chain,
walked from `(cx,cy)`, has `fpeq(transit_len, 0)` (squared length below
`eps2`). -/
def allTransitsZero : List vector_t → ℚ → ℚ → Bool
  | [], _, _ => true
  | v :: rest, cx, cy =>
    decide (dist2 cx cy v.x1 v.y1 < eps2) && allTransitsZero rest v.x2 v.y2

/-- Built from the words of the spec's §4.4 claim about `stats`:
"transitLength sums consecutive B→nextA distances (excluding zero-length
transits from both the count and the sum)" — the sum over consecutive pairs
only, with no contribution for the first chain element. -/
noncomputable def spec_pairwise_transit : List vector_t → ℝ
  | a :: b :: rest =>
    (if dist2 a.x2 a.y2 b.x1 b.y1 ≠ 0 then
      Real.sqrt ((dist2 a.x2 a.y2 b.x1 b.y1 : ℚ) : ℝ) else 0) +
      spec_pairwise_transit (b :: rest)
  | _ => 0

/-- The transit from the origin `(0,0)` to the first chain element's A
endpoint (zero when the chain is empty or that distance is zero), which
`vector_stats` includes in `transit_len_sum` because its walk starts at
`lx = ly = 0`. -/
noncomputable def spec_initial_transit : List vector_t → ℝ
  | [] => 0
  | a :: _ =>
    if dist2 0 0 a.x1 a.y1 ≠ 0 then Real.sqrt ((dist2 0 0 a.x1 a.y1 : ℚ) : ℝ) else 0

/-- A concrete three-segment chain: two zero-transit segments whose B
endpoints `(1,0)` and `(-1,0)` are equally close to the A endpoint `(0,0)` of
the third segment, which carries the only positive transit. -/
def exChain : List vector_t := [⟨0, 0, 1, 0⟩, ⟨1, 0, -1, 0⟩, ⟨0, 0, 5, 5⟩]

theorem endDist_false (cx cy : ℚ) (s : vector_t) :
    endDist cx cy s false = dist2 cx cy s.x1 s.y1 := rfl

theorem endDist_true (cx cy : ℚ) (s : vector_t) :
    endDist cx cy s true = dist2 cx cy s.x2 s.y2 := rfl

theorem candPos_succ_lt_succ {k j : Nat} {q r : Bool} (h : candPos (k + 1) q < candPos (j + 1) r) :
    candPos k q < candPos j r := by
  cases q <;> cases r <;> simp [candPos] at h ⊢ <;> omega

theorem candPos_not_lt_zero_false {k : Nat} {q : Bool} (h : candPos k q < candPos 0 false) :
    False := by
  cases q <;> simp [candPos] at h

theorem candPos_lt_zero_true {k : Nat} {q : Bool} (h : candPos k q < candPos 0 true) :
    k = 0 ∧ q = false := by
  cases q <;> simp [candPos] at h ⊢
  omega

theorem findBestGo_spec (cx cy : ℚ) (l : List vector_t) :
    ∀ (i0 : Nat) (bd : ℚ) (best : Option (Nat × Bool)),
      (findBestGo cx cy l i0 bd best = best ∧
        ∀ (j : Nat) (hj : j < l.length) (r : Bool), bd ≤ endDist cx cy (l.get ⟨j, hj⟩) r) ∨
      (∃ (j : Nat) (hj : j < l.length) (r : Bool),
        findBestGo cx cy l i0 bd best = some (i0 + j, r) ∧
        endDist cx cy (l.get ⟨j, hj⟩) r < bd ∧
        (∀ (k : Nat) (hk : k < l.length) (q : Bool),
          endDist cx cy (l.get ⟨j, hj⟩) r ≤ endDist cx cy (l.get ⟨k, hk⟩) q) ∧
        (∀ (k : Nat) (hk : k < l.length) (q : Bool), candPos k q < candPos j r →
          endDist cx cy (l.get ⟨j, hj⟩) r < endDist cx cy (l.get ⟨k, hk⟩) q)) := by
  induction l with
  | nil =>
    intro i0 bd best
    left
    exact ⟨rfl, fun j hj => by simp at hj⟩
  | cons v rest ih =>
    intro i0 bd best
    by_cases h1 : dist2 cx cy v.x1 v.y1 < bd
    · by_cases h2 : dist2 cx cy v.x2 v.y2 < dist2 cx cy v.x1 v.y1
      · -- A: both checks update; recurse with the B match of `v` recorded
        have heq : findBestGo cx cy (v :: rest) i0 bd best =
            findBestGo cx cy rest (i0 + 1) (dist2 cx cy v.x2 v.y2) (some (i0, true)) := by
          simp [findBestGo, h1, h2]
        rcases ih (i0 + 1) (dist2 cx cy v.x2 v.y2) (some (i0, true)) with
          ⟨hres, hall⟩ | ⟨j, hj, r, hres, hlt, hmin, hstrict⟩
        · right
          refine ⟨0, by simp, true, ?_, ?_, ?_, ?_⟩
          · simpa using heq.trans hres
          · simpa [endDist_true] using h2.trans h1
          · intro k hk q
            rcases k with _ | k
            · cases q
              · simpa [endDist_true, endDist_false] using le_of_lt h2
              · simp [endDist_true]
            · have hk' : k < rest.length := by simpa using hk
              simpa [endDist_true] using hall k hk' q
          · intro k hk q hcp
            rcases candPos_lt_zero_true hcp with ⟨hk0, hq⟩
            subst hk0; subst hq
            simpa [endDist_true, endDist_false] using h2
        · right
          have hj1 : j + 1 < (v :: rest).length := by simpa using Nat.succ_lt_succ hj
          refine ⟨j + 1, hj1, r, ?_, ?_, ?_, ?_⟩
          · rw [heq, hres]; congr 2; omega
          · simp only [List.get_cons_succ]
            exact lt_trans (lt_trans hlt h2) h1
          · intro k hk q
            rcases k with _ | k
            · cases q
              · simp only [List.get_cons_succ, List.get_cons_zero, endDist_false]
                exact le_of_lt (lt_trans hlt h2)
              · simp only [List.get_cons_succ, List.get_cons_zero, endDist_true]
                exact le_of_lt hlt
            · have hk' : k < rest.length := by simpa using hk
              simpa using hmin k hk' q
          · intro k hk q hcp
            rcases k with _ | k
            · cases q
              · simp only [List.get_cons_succ, List.get_cons_zero, endDist_false]
                exact lt_trans hlt h2
              · simp only [List.get_cons_succ, List.get_cons_zero, endDist_true]
                exact hlt
            · have hk' : k < rest.length := by simpa using hk
              simpa using hstrict k hk' q (candPos_succ_lt_succ hcp)
      · -- B: only the A check updates; recurse with the A match of `v` recorded
        have heq : findBestGo cx cy (v :: rest) i0 bd best =
            findBestGo cx cy rest (i0 + 1) (dist2 cx cy v.x1 v.y1) (some (i0, false)) := by
          simp [findBestGo, h1, h2]
        rcases ih (i0 + 1) (dist2 cx cy v.x1 v.y1) (some (i0, false)) with
          ⟨hres, hall⟩ | ⟨j, hj, r, hres, hlt, hmin, hstrict⟩
        · right
          refine ⟨0, by simp, false, ?_, ?_, ?_, ?_⟩
          · simpa using heq.trans hres
          · simpa [endDist_false] using h1
          · intro k hk q
            rcases k with _ | k
            · cases q
              · simp [endDist_false]
              · simpa [endDist_true, endDist_false] using not_lt.mp h2
            · have hk' : k < rest.length := by simpa using hk
              simpa [endDist_false] using hall k hk' q
          · intro k hk q hcp
            exact absurd hcp (by intro h; exact candPos_not_lt_zero_false h)
        · right
          have hj1 : j + 1 < (v :: rest).length := by simpa using Nat.succ_lt_succ hj
          refine ⟨j + 1, hj1, r, ?_, ?_, ?_, ?_⟩
          · rw [heq, hres]; congr 2; omega
          · simp only [List.get_cons_succ]
            exact lt_trans hlt h1
          · intro k hk q
            rcases k with _ | k
            · cases q
              · simp only [List.get_cons_succ, List.get_cons_zero, endDist_false]
                exact le_of_lt hlt
              · simp only [List.get_cons_succ, List.get_cons_zero, endDist_true]
                exact le_of_lt (lt_of_lt_of_le hlt (not_lt.mp h2))
            · have hk' : k < rest.length := by simpa using hk
              simpa using hmin k hk' q
          · intro k hk q hcp
            rcases k with _ | k
            · cases q
              · simp only [List.get_cons_succ, List.get_cons_zero, endDist_false]
                exact hlt
              · simp only [List.get_cons_succ, List.get_cons_zero, endDist_true]
                exact lt_of_lt_of_le hlt (not_lt.mp h2)
            · have hk' : k < rest.length := by simpa using hk
              simpa using hstrict k hk' q (candPos_succ_lt_succ hcp)
    · by_cases h2 : dist2 cx cy v.x2 v.y2 < bd
      · -- C: only the B check updates; recurse with the B match of `v` recorded
        have heq : findBestGo cx cy (v :: rest) i0 bd best =
            findBestGo cx cy rest (i0 + 1) (dist2 cx cy v.x2 v.y2) (some (i0, true)) := by
          simp [findBestGo, h1, h2]
        rcases ih (i0 + 1) (dist2 cx cy v.x2 v.y2) (some (i0, true)) with
          ⟨hres, hall⟩ | ⟨j, hj, r, hres, hlt, hmin, hstrict⟩
        · right
          refine ⟨0, by simp, true, ?_, ?_, ?_, ?_⟩
          · simpa using heq.trans hres
          · simpa [endDist_true] using h2
          · intro k hk q
            rcases k with _ | k
            · cases q
              · simpa [endDist_true, endDist_false] using
                  le_of_lt (lt_of_lt_of_le h2 (not_lt.mp h1))
              · simp [endDist_true]
            · have hk' : k < rest.length := by simpa using hk
              simpa [endDist_true] using hall k hk' q
          · intro k hk q hcp
            rcases candPos_lt_zero_true hcp with ⟨hk0, hq⟩
            subst hk0; subst hq
            simpa [endDist_true, endDist_false] using lt_of_lt_of_le h2 (not_lt.mp h1)
        · right
          have hj1 : j + 1 < (v :: rest).length := by simpa using Nat.succ_lt_succ hj
          refine ⟨j + 1, hj1, r, ?_, ?_, ?_, ?_⟩
          · rw [heq, hres]; congr 2; omega
          · simp only [List.get_cons_succ]
            exact lt_trans hlt h2
          · intro k hk q
            rcases k with _ | k
            · cases q
              · simp only [List.get_cons_succ, List.get_cons_zero, endDist_false]
                exact le_of_lt (lt_of_lt_of_le (lt_trans hlt h2) (not_lt.mp h1))
              · simp only [List.get_cons_succ, List.get_cons_zero, endDist_true]
                exact le_of_lt hlt
            · have hk' : k < rest.length := by simpa using hk
              simpa using hmin k hk' q
          · intro k hk q hcp
            rcases k with _ | k
            · cases q
              · simp only [List.get_cons_succ, List.get_cons_zero, endDist_false]
                exact lt_of_lt_of_le (lt_trans hlt h2) (not_lt.mp h1)
              · simp only [List.get_cons_succ, List.get_cons_zero, endDist_true]
                exact hlt
            · have hk' : k < rest.length := by simpa using hk
              simpa using hstrict k hk' q (candPos_succ_lt_succ hcp)
      · -- D: no update on `v`; recurse with the incoming accumulator
        have heq : findBestGo cx cy (v :: rest) i0 bd best =
            findBestGo cx cy rest (i0 + 1) bd best := by
          simp [findBestGo, h1, h2]
        rcases ih (i0 + 1) bd best with
          ⟨hres, hall⟩ | ⟨j, hj, r, hres, hlt, hmin, hstrict⟩
        · left
          refine ⟨heq.trans hres, ?_⟩
          intro k hk q
          rcases k with _ | k
          · cases q
            · simpa [endDist_false] using not_lt.mp h1
            · simpa [endDist_true] using not_lt.mp h2
          · have hk' : k < rest.length := by simpa using hk
            simpa using hall k hk' q
        · right
          have hj1 : j + 1 < (v :: rest).length := by simpa using Nat.succ_lt_succ hj
          refine ⟨j + 1, hj1, r, ?_, ?_, ?_, ?_⟩
          · rw [heq, hres]; congr 2; omega
          · simp only [List.get_cons_succ]
            exact hlt
          · intro k hk q
            rcases k with _ | k
            · cases q
              · simp only [List.get_cons_succ, List.get_cons_zero, endDist_false]
                exact le_of_lt (lt_of_lt_of_le hlt (not_lt.mp h1))
              · simp only [List.get_cons_succ, List.get_cons_zero, endDist_true]
                exact le_of_lt (lt_of_lt_of_le hlt (not_lt.mp h2))
            · have hk' : k < rest.length := by simpa using hk
              simpa using hmin k hk' q
          · intro k hk q hcp
            rcases k with _ | k
            · cases q
              · simp only [List.get_cons_succ, List.get_cons_zero, endDist_false]
                exact lt_of_lt_of_le hlt (not_lt.mp h1)
              · simp only [List.get_cons_succ, List.get_cons_zero, endDist_true]
                exact lt_of_lt_of_le hlt (not_lt.mp h2)
            · have hk' : k < rest.length := by simpa using hk
              simpa using hstrict k hk' q (candPos_succ_lt_succ hcp)

/-- A `none` result of the scan means every endpoint is at squared distance
at least `1e9`. -/
theorem findBest_none {l : List vector_t} {cx cy : ℚ} (h : findBest l cx cy = none) :
    ∀ (j : Nat) (hj : j < l.length) (r : Bool), bigR ≤ endDist cx cy (l.get ⟨j, hj⟩) r := by
  rcases findBestGo_spec cx cy l 0 bigR none with ⟨_, hall⟩ | ⟨j, hj, r, hres, _, _, _⟩
  · exact hall
  · rw [findBest] at h; rw [h] at hres; exact absurd hres (by simp)

/-- A `some (i, rev)` result of the scan picks a valid position whose matched
endpoint is strictly within the `1e9` radius, minimal among all endpoints, and
strictly below every endpoint scanned before it. -/
theorem findBest_some {l : List vector_t} {cx cy : ℚ} {i : Nat} {rev : Bool}
    (h : findBest l cx cy = some (i, rev)) :
    ∃ hi : i < l.length,
      endDist cx cy (l.get ⟨i, hi⟩) rev < bigR ∧
      (∀ (k : Nat) (hk : k < l.length) (q : Bool),
        endDist cx cy (l.get ⟨i, hi⟩) rev ≤ endDist cx cy (l.get ⟨k, hk⟩) q) ∧
      (∀ (k : Nat) (hk : k < l.length) (q : Bool), candPos k q < candPos i rev →
        endDist cx cy (l.get ⟨i, hi⟩) rev < endDist cx cy (l.get ⟨k, hk⟩) q) := by
  rcases findBestGo_spec cx cy l 0 bigR none with ⟨hres, _⟩ | ⟨j, hj, r, hres, hlt, hmin, hstrict⟩
  · rw [findBest] at h; rw [h] at hres; exact absurd hres (by simp)
  · rw [findBest] at h; rw [h] at hres
    have hji : i = j ∧ rev = r := by simpa using hres
    obtain ⟨rfl, rfl⟩ := hji
    exact ⟨hj, hlt, hmin, hstrict⟩

/-- Prepending the element at position `i` to the list with position `i`
erased is a permutation of the original list. -/
theorem get_cons_eraseIdx_perm {α : Type} :
    ∀ (l : List α) (i : Nat) (hi : i < l.length), (l.get ⟨i, hi⟩ :: l.eraseIdx i).Perm l := by
  intro l
  induction l with
  | nil => intro i hi; simp at hi
  | cons a t ih =>
    intro i hi
    rcases i with _ | j
    · simp
    · have hj : j < t.length := by simpa using hi
      have : (a :: t).eraseIdx (j + 1) = a :: t.eraseIdx j := rfl
      rw [this, List.get_cons_succ]
      exact (List.Perm.swap a _ _).trans ((ih j hj).cons a)

/-- Reversal does not change the direction-insensitive endpoint pair. -/
theorem epair_reverseSeg (s : vector_t) : epair (reverseSeg s) = epair s := by
  simp [epair, reverseSeg]
  exact Multiset.cons_swap _ _ _

/-- Structure of a successful `vector_find_closest`: it picks a valid store
position, reverses the segment exactly when the match was on the B endpoint,
and unlinks that position from the store. -/
theorem vector_find_closest_some {l : List vector_t} {cx cy : ℚ} {v : vector_t}
    {rest : List vector_t} (h : vector_find_closest l cx cy = some (v, rest)) :
    ∃ (i : Nat) (hi : i < l.length) (rev : Bool),
      findBest l cx cy = some (i, rev) ∧
      v = (if rev then reverseSeg (l.get ⟨i, hi⟩) else l.get ⟨i, hi⟩) ∧
      rest = l.eraseIdx i := by
  rcases hb : findBest l cx cy with _ | ⟨i, rev⟩
  · rw [vector_find_closest, hb] at h; simp at h
  · rcases findBest_some hb with ⟨hi, -, -, -⟩
    rw [vector_find_closest, hb] at h
    simp only [] at h
    rw [List.get?_eq_get hi] at h
    refine ⟨i, hi, rev, rfl, ?_, ?_⟩
    · have hinj := (Option.some.injEq _ _).mp h
      exact (congrArg Prod.fst hinj).symm
    · have hinj := (Option.some.injEq _ _).mp h
      exact (congrArg Prod.snd hinj).symm

/-- A `none` from `vector_find_closest` means every endpoint of every store
member is outside the `1e9` squared-distance search radius. -/
theorem vector_find_closest_none {l : List vector_t} {cx cy : ℚ}
    (h : vector_find_closest l cx cy = none) :
    ∀ s ∈ l, ¬ withinRadius s cx cy := by
  intro s hs
  rcases List.mem_iff_get.mp hs with ⟨⟨j, hj⟩, rfl⟩
  rcases hb : findBest l cx cy with _ | ⟨i, rev⟩
  · have hall := findBest_none hb
    intro hw
    rcases hw with hw | hw
    · exact absurd hw (not_lt.mpr (by simpa [endDist_false] using hall j hj false))
    · exact absurd hw (not_lt.mpr (by simpa [endDist_true] using hall j hj true))
  · rcases findBest_some hb with ⟨hi, -, -, -⟩
    rw [vector_find_closest, hb] at h
    simp only [] at h
    rw [List.get?_eq_get hi] at h
    simp at h

/-- A successful `vector_find_closest` removes exactly one store position:
the extracted (possibly reversed) segment together with the remaining store
carries the same endpoint-pair multiset as the input store, and the remaining
store is one shorter. -/
theorem vector_find_closest_perm {l : List vector_t} {cx cy : ℚ} {v : vector_t}
    {rest : List vector_t} (h : vector_find_closest l cx cy = some (v, rest)) :
    epair v ::ₘ (↑(rest.map epair) : Multiset (Multiset (ℚ × ℚ))) = ↑(l.map epair) ∧
      rest.length + 1 = l.length := by
  rcases vector_find_closest_some h with ⟨i, hi, rev, -, hv, hrest⟩
  have hperm : (l.get ⟨i, hi⟩ :: l.eraseIdx i).Perm l := get_cons_eraseIdx_perm l i hi
  have hpm : ((l.get ⟨i, hi⟩ :: l.eraseIdx i).map epair).Perm (l.map epair) := hperm.map epair
  constructor
  · have hv' : epair v = epair (l.get ⟨i, hi⟩) := by
      rcases rev with _ | _
      · rw [if_neg (by simp)] at hv
        rw [hv]
      · rw [if_pos rfl] at hv
        rw [hv, epair_reverseSeg]
    rw [hv', hrest]
    have := Multiset.coe_eq_coe.mpr hpm
    simpa using this
  · rw [hrest]
    have := hperm.length_eq
    simpa using this

/-- Invariant of the greedy loop of `vector_optimize`: whenever it returns a
chain, that chain carries exactly the endpoint-pair multiset of the input
store, has the same size, and the returned position is the B endpoint of the
last chain element (or the incoming position for an empty chain, which only
arises from an empty store). -/
theorem vector_optimize_go_some :
    ∀ (n : Nat) (l : List vector_t) (cx cy : ℚ) (chain : List vector_t) (ex ey : ℚ),
      vector_optimize_go n l cx cy = some (chain, ex, ey) →
      (↑(chain.map epair) : Multiset (Multiset (ℚ × ℚ))) = ↑(l.map epair) ∧
      chain.length = l.length ∧
      (chain = [] → l = [] ∧ ex = cx ∧ ey = cy) ∧
      (∀ w, chain.getLast? = some w → ex = w.x2 ∧ ey = w.y2) := by
  intro n
  induction n with
  | zero =>
    intro l cx cy chain ex ey h
    cases l with
    | nil =>
      obtain ⟨rfl, rfl, rfl⟩ : chain = [] ∧ cx = ex ∧ cy = ey := by
        simpa [vector_optimize_go] using h
      exact ⟨rfl, rfl, fun _ => ⟨rfl, rfl, rfl⟩, fun w hw => by simp at hw⟩
    | cons v vs => simp [vector_optimize_go] at h
  | succ n ih =>
    intro l cx cy chain ex ey h
    cases l with
    | nil =>
      obtain ⟨rfl, rfl, rfl⟩ : chain = [] ∧ cx = ex ∧ cy = ey := by
        simpa [vector_optimize_go] using h
      exact ⟨rfl, rfl, fun _ => ⟨rfl, rfl, rfl⟩, fun w hw => by simp at hw⟩
    | cons v vs =>
      rw [vector_optimize_go] at h
      rcases hfc : vector_find_closest (v :: vs) cx cy with _ | ⟨w, rest⟩
      · rw [hfc] at h; simp at h
      · rw [hfc] at h
        simp only [] at h
        rcases hrec : vector_optimize_go n rest w.x2 w.y2 with _ | ⟨⟨chain', ex', ey'⟩⟩
        · rw [hrec] at h; simp at h
        · rw [hrec] at h
          obtain ⟨rfl, rfl, rfl⟩ : w :: chain' = chain ∧ ex' = ex ∧ ey' = ey := by
            simpa using h
          obtain ⟨ihm, ihl, ihnil, ihlast⟩ := ih rest w.x2 w.y2 chain' ex' ey' hrec
          obtain ⟨hpm, hpl⟩ := vector_find_closest_perm hfc
          refine ⟨?_, ?_, ?_, ?_⟩
          · have : (↑((w :: chain').map epair) : Multiset (Multiset (ℚ × ℚ))) =
                epair w ::ₘ ↑(chain'.map epair) := by simp
            rw [this, ihm, hpm]
          · simpa [ihl] using hpl
          · intro hc; simp at hc
          · intro u hu
            cases chain' with
            | nil =>
              have hw : w = u := by simpa using hu
              subst hw
              obtain ⟨-, hex, hey⟩ := ihnil rfl
              exact ⟨hex, hey⟩
            | cons c cs =>
              rw [List.getLast?_cons_cons] at hu
              exact ihlast u hu

/-- When the run-safety condition holds (every remaining member has an
endpoint within the search radius at every step), the greedy loop never hits
the `abort()` path. -/
theorem runSafe_optimize_go :
    ∀ (n : Nat) (l : List vector_t) (cx cy : ℚ), runSafe n l cx cy = true →
      ∃ chain ex ey, vector_optimize_go n l cx cy = some (chain, ex, ey) := by
  intro n
  induction n with
  | zero =>
    intro l cx cy h
    cases l with
    | nil => exact ⟨[], cx, cy, rfl⟩
    | cons v vs => simp [runSafe] at h
  | succ n ih =>
    intro l cx cy h
    cases l with
    | nil => exact ⟨[], cx, cy, rfl⟩
    | cons v vs =>
      rw [runSafe] at h
      rcases hfc : vector_find_closest (v :: vs) cx cy with _ | ⟨w, rest⟩
      · rw [hfc] at h
        simp only [Bool.and_eq_true, List.all_eq_true, decide_eq_true_eq] at h
        exact absurd (h.1 v (by simp)) (vector_find_closest_none hfc v (by simp))
      · rw [hfc] at h
        simp only [Bool.and_eq_true] at h
        rcases ih rest w.x2 w.y2 h.2 with ⟨chain, ex, ey, hopt⟩
        exact ⟨w :: chain, ex, ey, by simp [vector_optimize_go, hfc, hopt]⟩

/-- Full characterisation of the prefix scan of `vector_refine` (step 2):
either the accumulator survives (every scanned candidate is strictly farther
than the running minimum `md`), or the scan selects the last candidate that
realises the minimum of the scanned distances, all of them at most `md`. -/
theorem closestScan_spec (tax tay : ℚ) (l : List vector_t) :
    ∀ (i0 : Nat) (md : ℚ) (best : Option Nat),
      (closestScan tax tay l i0 md best = best ∧
        ∀ (j : Nat) (hj : j < l.length), md < dPrior tax tay (l.get ⟨j, hj⟩)) ∨
      (∃ (j : Nat) (hj : j < l.length),
        closestScan tax tay l i0 md best = some (i0 + j) ∧
        dPrior tax tay (l.get ⟨j, hj⟩) ≤ md ∧
        (∀ (k : Nat) (hk : k < l.length),
          dPrior tax tay (l.get ⟨j, hj⟩) ≤ dPrior tax tay (l.get ⟨k, hk⟩)) ∧
        (∀ (k : Nat) (hk : k < l.length), j < k →
          dPrior tax tay (l.get ⟨j, hj⟩) < dPrior tax tay (l.get ⟨k, hk⟩))) := by
  induction l with
  | nil => intro i0 md best; left; exact ⟨rfl, fun j hj => by simp at hj⟩
  | cons v rest ih =>
    intro i0 md best
    by_cases h1 : md < dPrior tax tay v
    · have heq : closestScan tax tay (v :: rest) i0 md best =
          closestScan tax tay rest (i0 + 1) md best := by
        simp [closestScan, h1]
      rcases ih (i0 + 1) md best with ⟨hres, hall⟩ | ⟨j, hj, hres, hle, hmin, hlater⟩
      · left
        refine ⟨heq.trans hres, ?_⟩
        intro j hj
        rcases j with _ | j
        · simpa using h1
        · have hj' : j < rest.length := by simpa using hj
          simpa using hall j hj'
      · right
        have hj1 : j + 1 < (v :: rest).length := by simpa using Nat.succ_lt_succ hj
        refine ⟨j + 1, hj1, ?_, ?_, ?_, ?_⟩
        · rw [heq, hres]; congr 1; omega
        · simp only [List.get_cons_succ]; exact hle
        · intro k hk
          rcases k with _ | k
          · simp only [List.get_cons_succ, List.get_cons_zero]
            exact le_of_lt (lt_of_le_of_lt hle h1)
          · have hk' : k < rest.length := by simpa using hk
            simpa using hmin k hk'
        · intro k hk hjk
          rcases k with _ | k
          · omega
          · have hk' : k < rest.length := by simpa using hk
            have hjk' : j < k := by omega
            simpa using hlater k hk' hjk'
    · have heq : closestScan tax tay (v :: rest) i0 md best =
          closestScan tax tay rest (i0 + 1) (dPrior tax tay v) (some i0) := by
        simp [closestScan, h1]
      rcases ih (i0 + 1) (dPrior tax tay v) (some i0) with
        ⟨hres, hall⟩ | ⟨j, hj, hres, hle, hmin, hlater⟩
      · right
        refine ⟨0, by simp, ?_, ?_, ?_, ?_⟩
        · simpa using heq.trans hres
        · simpa using not_lt.mp h1
        · intro k hk
          rcases k with _ | k
          · simp
          · have hk' : k < rest.length := by simpa using hk
            simpa using le_of_lt (hall k hk')
        · intro k hk h0k
          rcases k with _ | k
          · omega
          · have hk' : k < rest.length := by simpa using hk
            simpa using hall k hk'
      · right
        have hj1 : j + 1 < (v :: rest).length := by simpa using Nat.succ_lt_succ hj
        refine ⟨j + 1, hj1, ?_, ?_, ?_, ?_⟩
        · rw [heq, hres]; congr 1; omega
        · simp only [List.get_cons_succ]
          exact le_trans hle (not_lt.mp h1)
        · intro k hk
          rcases k with _ | k
          · simp only [List.get_cons_succ, List.get_cons_zero]
            exact hle
          · have hk' : k < rest.length := by simpa using hk
            simpa using hmin k hk'
        · intro k hk hjk
          rcases k with _ | k
          · omega
          · have hk' : k < rest.length := by simpa using hk
            have hjk' : j < k := by omega
            simpa using hlater k hk' hjk'

/-- When every transit of the chain is `fpeq`-zero, the longest-transit scan
never updates its accumulator. -/
theorem longestScan_allZero :
    ∀ (l : List vector_t) (cx cy : ℚ) (i : Nat) (maxd : ℚ) (best : Option Nat),
      allTransitsZero l cx cy = true → longestScan l cx cy i maxd best = best := by
  intro l
  induction l with
  | nil => intro cx cy i maxd best _; rfl
  | cons v rest ih =>
    intro cx cy i maxd best h
    simp only [allTransitsZero, Bool.and_eq_true, decide_eq_true_eq] at h
    have hcond : ¬ (¬ dist2 cx cy v.x1 v.y1 < eps2 ∧ maxd < dist2 cx cy v.x1 v.y1) := by
      intro hc; exact hc.1 h.1
    simp only [longestScan]
    rw [if_neg hcond]
    exact ih v.x2 v.y2 (i + 1) maxd best h.2

/-- With all transits `fpeq`-zero, step 1 of `vector_refine` finds no
longest-transit segment. -/
theorem findLongestTransit_allZero {chain : List vector_t} {cx cy : ℚ}
    (h : allTransitsZero chain cx cy = true) : findLongestTransit chain cx cy = none :=
  longestScan_allZero chain cx cy 0 0 none h

/-- Characterisation of a successful prefix search in `vector_refine`: the
selected position is a valid prefix position whose B endpoint realises the
minimum squared distance to the transit segment's A endpoint (capped by the
`1e9` seed), and every strictly later prefix candidate is strictly farther —
i.e. the last equally-close candidate wins. -/
theorem findClosestPrior_spec {chain : List vector_t} {t c : Nat} {tv : vector_t}
    (htv : chain.get? t = some tv) (h : findClosestPrior chain t = some c) :
    ∃ hc : c < (chain.take t).length,
      dPrior tv.x1 tv.y1 ((chain.take t).get ⟨c, hc⟩) ≤ bigR ∧
      (∀ (j : Nat) (hj : j < (chain.take t).length),
        dPrior tv.x1 tv.y1 ((chain.take t).get ⟨c, hc⟩) ≤
          dPrior tv.x1 tv.y1 ((chain.take t).get ⟨j, hj⟩)) ∧
      (∀ (j : Nat) (hj : j < (chain.take t).length), c < j →
        dPrior tv.x1 tv.y1 ((chain.take t).get ⟨c, hc⟩) <
          dPrior tv.x1 tv.y1 ((chain.take t).get ⟨j, hj⟩)) := by
  rw [findClosestPrior, htv] at h
  simp only [] at h
  rcases closestScan_spec tv.x1 tv.y1 (chain.take t) 0 bigR none with
    ⟨hres, -⟩ | ⟨j, hj, hres, hle, hmin, hlater⟩
  · rw [hres] at h; simp at h
  · rw [hres] at h
    have hjc : j = c := by simpa using h
    subst hjc
    exact ⟨hj, hle, hmin, hlater⟩

/-- C1: for every store on which the greedy run is safe (at every step each
remaining member has some endpoint within the `1e9` search radius of the
running position), `vector_optimize` succeeds and produces a chain of exactly
`n` segments whose multiset of direction-insensitive `{A,B}` endpoint pairs
equals that of the store. -/
theorem c1_sequencer_completeness (store : List vector_t) (cx cy : ℚ)
    (h : runSafe store.length store cx cy = true) :
    ∃ chain ex ey, vector_optimize store cx cy = some (chain, ex, ey) ∧
      chain.length = store.length ∧
      (↑(chain.map epair) : Multiset (Multiset (ℚ × ℚ))) = ↑(store.map epair) := by
  rcases runSafe_optimize_go store.length store cx cy h with ⟨chain, ex, ey, hopt⟩
  obtain ⟨hm, hl, -, -⟩ := vector_optimize_go_some store.length store cx cy chain ex ey hopt
  exact ⟨chain, ex, ey, hopt, hl, hm⟩

/-- C2: the code, evaluated at the failing input of the degenerate-rejection
claim: inserting the degenerate segment `(A,A)` with `A = (1,2)` into the
EMPTY store appends it, growing the store from size 0 to size 1, because the
degeneracy test of `vector_create` sits inside the member-scan loop and is
never executed when the store is empty. -/
theorem c2_degenerate_insert_grows_empty_store :
    vector_create [] 1 2 1 2 = [⟨1, 2, 1, 2⟩] ∧
      ([] : List vector_t).length < (vector_create [] 1 2 1 2).length := by
  exact ⟨rfl, by simp [vector_create]⟩

/-- C3: a successful `vector_find_closest` returns the segment whose matched
endpoint — its A endpoint after the conditional reversal, which is applied
exactly when the match was on the B endpoint — realises the minimum squared
distance to the query over all endpoints of all store members, unlinks that
segment from the store, and breaks ties first-encountered-wins in store scan
order (A endpoint before B endpoint within a segment). -/
theorem c3_take_closest (l : List vector_t) (cx cy : ℚ) (v : vector_t) (rest : List vector_t)
    (h : vector_find_closest l cx cy = some (v, rest)) :
    ∃ (i : Nat) (hi : i < l.length) (rev : Bool),
      findBest l cx cy = some (i, rev) ∧
      v = (if rev then reverseSeg (l.get ⟨i, hi⟩) else l.get ⟨i, hi⟩) ∧
      rest = l.eraseIdx i ∧
      (∀ s ∈ l, ∀ q : Bool, dist2 cx cy v.x1 v.y1 ≤ endDist cx cy s q) ∧
      (∀ (k : Nat) (hk : k < l.length) (q : Bool), candPos k q < candPos i rev →
        dist2 cx cy v.x1 v.y1 < endDist cx cy (l.get ⟨k, hk⟩) q) := by
  rcases vector_find_closest_some h with ⟨i, hi, rev, hb, hv, hrest⟩
  rcases findBest_some hb with ⟨hi', hlt, hmin, hstrict⟩
  have hva : dist2 cx cy v.x1 v.y1 = endDist cx cy (l.get ⟨i, hi⟩) rev := by
    rcases rev with _ | _
    · rw [if_neg (by simp)] at hv; rw [hv, endDist_false]
    · rw [if_pos rfl] at hv; rw [hv]; rfl
  refine ⟨i, hi, rev, hb, hv, hrest, ?_, ?_⟩
  · intro s hs q
    rcases List.mem_iff_get.mp hs with ⟨⟨k, hk⟩, rfl⟩
    rw [hva]
    exact hmin k hk q
  · intro k hk q hcp
    rw [hva]
    exact hstrict k hk q hcp

/-- C4 (counterexample): in the chain `exChain`, the longest transit is on the
third segment, the two prefix segments have B endpoints equally close to its A
endpoint, and the prefix search selects position 1 — the LAST equally-close
candidate — not the earliest position 0 that the first-found tie-break of the
claim would require. -/
theorem c4_counterexample :
    findLongestTransit exChain 0 0 = some 2 ∧
    exChain.get? 2 = some ⟨0, 0, 5, 5⟩ ∧
    dPrior 0 0 ⟨0, 0, 1, 0⟩ = dPrior 0 0 ⟨1, 0, -1, 0⟩ ∧
    findClosestPrior exChain 2 = some 1 ∧
    findClosestPrior exChain 2 ≠ some 0 := by
  refine ⟨?_, by simp [exChain], by norm_num [dPrior, dist2], ?_, ?_⟩
  · norm_num [findLongestTransit, longestScan, exChain, dist2, eps2, eps]
  · norm_num [findClosestPrior, closestScan, exChain, dPrior, dist2, bigR]
  · norm_num [findClosestPrior, closestScan, exChain, dPrior, dist2, bigR]

/-- C4 (amended): in refine's prefix search, the selected prefix segment
realises the minimum squared B-to-A distance (never above the `1e9` seed),
and among equally-close candidates the LAST one encountered wins: every
strictly later prefix candidate is strictly farther, earlier ones only weakly
so. -/
theorem c4_prefix_tie_last_wins (chain : List vector_t) (t c : Nat) (tv : vector_t)
    (htv : chain.get? t = some tv) (h : findClosestPrior chain t = some c) :
    ∃ hc : c < (chain.take t).length,
      c < t ∧
      dPrior tv.x1 tv.y1 ((chain.take t).get ⟨c, hc⟩) ≤ bigR ∧
      (∀ (j : Nat) (hj : j < (chain.take t).length),
        dPrior tv.x1 tv.y1 ((chain.take t).get ⟨c, hc⟩) ≤
          dPrior tv.x1 tv.y1 ((chain.take t).get ⟨j, hj⟩)) ∧
      (∀ (j : Nat) (hj : j < (chain.take t).length), c < j →
        dPrior tv.x1 tv.y1 ((chain.take t).get ⟨c, hc⟩) <
          dPrior tv.x1 tv.y1 ((chain.take t).get ⟨j, hj⟩)) := by
  rcases findClosestPrior_spec htv h with ⟨hc, hle, hmin, hlater⟩
  have hct : c < t := lt_of_lt_of_le hc (by rw [List.length_take]; exact min_le_left _ _)
  exact ⟨hc, hct, hle, hmin, hlater⟩

/-- C5: a successful `vector_optimize` returns as final position exactly the
B endpoint of the last chain element, or the caller-supplied start position
when the chain (equivalently the store) is empty. -/
theorem c5_pen_continuity (store : List vector_t) (cx cy : ℚ)
    (chain : List vector_t) (ex ey : ℚ)
    (h : vector_optimize store cx cy = some (chain, ex, ey)) :
    (chain = [] → store = [] ∧ ex = cx ∧ ey = cy) ∧
    (∀ w, chain.getLast? = some w → ex = w.x2 ∧ ey = w.y2) := by
  obtain ⟨-, -, hnil, hlast⟩ := vector_optimize_go_some store.length store cx cy chain ex ey h
  exact ⟨hnil, hlast⟩

/-- C6: inserting a segment `(A,B)` into the empty store and then inserting
the same `(A,B)` again, or its reverse `(B,A)`, leaves the store equal to the
single-element store `[(A,B)]` — duplicate and reverse-duplicate insertions
are no-ops under the `1e-8`-per-coordinate tolerance. -/
theorem c6_dedup_idempotence (x1 y1 x2 y2 : ℚ) :
    vector_create [] x1 y1 x2 y2 = [⟨x1, y1, x2, y2⟩] ∧
    vector_create (vector_create [] x1 y1 x2 y2) x1 y1 x2 y2 = [⟨x1, y1, x2, y2⟩] ∧
    vector_create (vector_create [] x1 y1 x2 y2) x2 y2 x1 y1 = [⟨x1, y1, x2, y2⟩] := by
  have hself : ∀ z : ℚ, fpeq z z := by
    intro z
    simp only [fpeq, sub_self, abs_zero]
    norm_num [eps]
  refine ⟨rfl, ?_, ?_⟩
  · simp [vector_create, hself]
  · by_cases hdeg : fpeq x1 x2 ∧ fpeq y1 y2 ∧ fpeq x2 x1 ∧ fpeq y2 y1
    · simp [vector_create, hdeg]
    · simp [vector_create, hdeg, hself]

/-- C8: on a chain whose every transit (walked from the supplied start
position) is `fpeq`-zero, `vector_refine` is an atomic no-op: it returns the
chain unchanged, reports a reduction of `0`, and leaves the position
out-parameters untouched. -/
theorem c8_refine_noop_on_continuous_chain (chain : List vector_t) (cx cy : ℚ)
    (h : allTransitsZero chain cx cy = true) :
    vector_refine chain cx cy = some (chain, 0, cx, cy) := by
  simp only [vector_refine, findLongestTransit_allZero h]

/-- C10: a non-empty store whose every endpoint is at squared distance at
least `1e9` from the query point: `vector_find_closest` returns `NULL`
(because its best-distance tracker is seeded with `1e9`, not infinity), and
`vector_optimize` on that store hits its fatal `abort()` path. -/
theorem c10_far_store_null_and_abort :
    ([⟨40000, 0, 40000, 40000⟩] : List vector_t) ≠ [] ∧
    (∀ s ∈ ([⟨40000, 0, 40000, 40000⟩] : List vector_t),
      bigR ≤ dist2 0 0 s.x1 s.y1 ∧ bigR ≤ dist2 0 0 s.x2 s.y2) ∧
    vector_find_closest [⟨40000, 0, 40000, 40000⟩] 0 0 = none ∧
    vector_optimize [⟨40000, 0, 40000, 40000⟩] 0 0 = none := by
  refine ⟨by simp, ?_, ?_, ?_⟩
  · intro s hs
    rw [List.mem_singleton] at hs
    subst hs
    constructor <;> norm_num [bigR, dist2]
  · norm_num [vector_find_closest, findBest, findBestGo, dist2, bigR]
  · norm_num [vector_optimize, vector_optimize_go, vector_find_closest, findBest,
      findBestGo, dist2, bigR]

/-- C7: when `vector_refine` reaches its relocation step (a longest-transit
segment at position `t` and a closest prior segment at position `c` were both
found) and the suffix re-sequencing succeeds, the resulting chain keeps the
prefix through `c` unchanged element-for-element, places the transit segment
(unreversed, geometry intact) immediately after it, and the part strictly
after the transit segment is exactly the greedy re-sequencing of the removed
suffix, carrying the same endpoint-pair multiset. -/
theorem c7_refine_frame (chain : List vector_t) (cx cy : ℚ) (t c : Nat) (tv : vector_t)
    (h1 : findLongestTransit chain cx cy = some t)
    (htv : chain.get? t = some tv)
    (h2 : findClosestPrior chain t = some c)
    (newChain : List vector_t) (r : ℝ) (ex ey : ℚ)
    (h3 : vector_refine chain cx cy = some (newChain, r, ex, ey)) :
    newChain.take (c + 1) = chain.take (c + 1) ∧
    newChain.get? (c + 1) = some tv ∧
    (↑((newChain.drop (c + 2)).map epair) : Multiset (Multiset (ℚ × ℚ))) =
      ↑(((chain.eraseIdx t).drop (c + 1)).map epair) ∧
    (∃ px py, vector_optimize ((chain.eraseIdx t).drop (c + 1)) tv.x2 tv.y2 =
      some (newChain.drop (c + 2), px, py)) := by
  have ht : t < chain.length := by
    rcases List.get?_eq_some.mp htv with ⟨hlt, -⟩
    exact hlt
  rcases findClosestPrior_spec htv h2 with ⟨hc, -, -, -⟩
  have hct : c < t := by
    rw [List.length_take] at hc
    omega
  have hlen1 : (chain.take (c + 1)).length = c + 1 := by
    rw [List.length_take]
    omega
  rw [vector_refine, h1] at h3
  simp only [] at h3
  rw [h2, htv] at h3
  simp only [] at h3
  rcases hopt : vector_optimize ((chain.eraseIdx t).drop (c + 1)) tv.x2 tv.y2 with
    _ | ⟨⟨suf, px, py⟩⟩
  · rw [hopt] at h3; simp at h3
  · rw [hopt] at h3
    obtain ⟨rfl, -, rfl, rfl⟩ :
        chain.take (c + 1) ++ tv :: suf = newChain ∧
          vector_transit_len chain -
            vector_transit_len (chain.take (c + 1) ++ tv :: suf) = r ∧
          px = ex ∧ py = ey := by
      simpa using h3
    have hdrop : (chain.take (c + 1) ++ tv :: suf).drop (c + 2) = suf := by
      have hassoc : chain.take (c + 1) ++ tv :: suf = (chain.take (c + 1) ++ [tv]) ++ suf := by
        simp
      have hlen2 : (chain.take (c + 1) ++ [tv]).length = c + 2 := by
        simp [hlen1]
      rw [hassoc, List.drop_left' hlen2]
    refine ⟨?_, ?_, ?_, ?_⟩
    · exact List.take_left' hlen1
    · rw [List.get?_append_right (le_of_eq hlen1), hlen1]
      simp
    · rw [hdrop]
      obtain ⟨hm, -, -, -⟩ :=
        vector_optimize_go_some ((chain.eraseIdx t).drop (c + 1)).length
          ((chain.eraseIdx t).drop (c + 1)) tv.x2 tv.y2 suf px py hopt
      exact hm
    · exact ⟨px, py, by rw [hdrop]⟩

/-- The head transit of a chain walked from `(lx,ly)`: the contribution of the
first chain element to the transit sum of `vector_stats`. -/
noncomputable def headTransit (lx ly : ℚ) : List vector_t → ℝ
  | [] => 0
  | a :: _ =>
    if dist2 lx ly a.x1 a.y1 ≠ 0 then Real.sqrt ((dist2 lx ly a.x1 a.y1 : ℚ) : ℝ) else 0

/-- One step of the `vector_stats` walk, on the transit component. -/
theorem vector_stats_go_cons (a : vector_t) (rest : List vector_t) (lx ly : ℚ) :
    (vector_stats_go (a :: rest) lx ly).transit_len_sum =
      (if dist2 lx ly a.x1 a.y1 ≠ 0 then Real.sqrt ((dist2 lx ly a.x1 a.y1 : ℚ) : ℝ) else 0) +
      (vector_stats_go rest a.x2 a.y2).transit_len_sum := rfl

/-- The transit sum accumulated by the `vector_stats` walk decomposes as the
transit to the first element plus the sum over consecutive pairs. -/
theorem vector_stats_go_transit :
    ∀ (l : List vector_t) (lx ly : ℚ),
      (vector_stats_go l lx ly).transit_len_sum =
        headTransit lx ly l + spec_pairwise_transit l := by
  intro l
  induction l with
  | nil => intro lx ly; simp [vector_stats_go, headTransit, spec_pairwise_transit]
  | cons a rest ih =>
    intro lx ly
    cases rest with
    | nil =>
      simp [vector_stats_go, headTransit, spec_pairwise_transit]
    | cons b rs =>
      have hih := ih a.x2 a.y2
      rw [vector_stats_go_cons, hih]
      simp only [headTransit, spec_pairwise_transit]

/-- C9 (counterexample): on the single-segment chain `[(1,0)-(1,1)]` the
transit length reported by `vector_stats` is `1` (the transit from the origin
`(0,0)` to the A endpoint `(1,0)`), while the sum over consecutive segment
pairs is `0` — the two quantities differ. -/
theorem c9_counterexample :
    (vector_stats [⟨1, 0, 1, 1⟩]).transit_len_sum ≠ spec_pairwise_transit [⟨1, 0, 1, 1⟩] := by
  have h1 : (vector_stats [⟨1, 0, 1, 1⟩]).transit_len_sum = 1 := by
    norm_num [vector_stats, vector_stats_go, dist2]
  have h2 : spec_pairwise_transit [⟨1, 0, 1, 1⟩] = 0 := by
    simp [spec_pairwise_transit]
  rw [h1, h2]
  norm_num

/-- C9 (amended): for every chain, the `transitLength` computed by
`vector_stats` equals the transit from the origin `(0,0)` to the first
segment's A endpoint plus the sum over consecutive segment pairs of the
B-to-next-A distances, exactly-zero-length transits excluded from the sum. -/
theorem c9_stats_transit_decomposition (l : List vector_t) :
    (vector_stats l).transit_len_sum = spec_initial_transit l + spec_pairwise_transit l := by
  have hhead : headTransit 0 0 l = spec_initial_transit l := by cases l <;> rfl
  rw [vector_stats, vector_stats_go_transit l 0 0, hhead]

/-- Witness for C1 at a concrete one-segment store. -/
theorem c1_witness :
    ∃ chain ex ey,
      vector_optimize [⟨0, 0, 1, 1⟩] 0 0 = some (chain, ex, ey) ∧
      chain.length = ([⟨0, 0, 1, 1⟩] : List vector_t).length ∧
      (↑(chain.map epair) : Multiset (Multiset (ℚ × ℚ))) =
        ↑(([⟨0, 0, 1, 1⟩] : List vector_t).map epair) :=
  c1_sequencer_completeness [⟨0, 0, 1, 1⟩] 0 0 (by
    norm_num [runSafe, vector_find_closest, findBest, findBestGo, dist2, bigR, withinRadius])

/-- Witness for C3 at a concrete store where the B endpoint wins and the
segment is reversed. -/
theorem c3_witness :
    ∃ (i : Nat) (hi : i < ([⟨3, 3, 0, 0⟩] : List vector_t).length) (rev : Bool),
      findBest [⟨3, 3, 0, 0⟩] 0 0 = some (i, rev) ∧
      (⟨0, 0, 3, 3⟩ : vector_t) =
        (if rev then reverseSeg (([⟨3, 3, 0, 0⟩] : List vector_t).get ⟨i, hi⟩)
         else ([⟨3, 3, 0, 0⟩] : List vector_t).get ⟨i, hi⟩) ∧
      ([] : List vector_t) = ([⟨3, 3, 0, 0⟩] : List vector_t).eraseIdx i ∧
      (∀ s ∈ ([⟨3, 3, 0, 0⟩] : List vector_t), ∀ q : Bool,
        dist2 0 0 (0 : ℚ) (0 : ℚ) ≤ endDist 0 0 s q) ∧
      (∀ (k : Nat) (hk : k < ([⟨3, 3, 0, 0⟩] : List vector_t).length) (q : Bool),
        candPos k q < candPos i rev →
        dist2 0 0 (0 : ℚ) (0 : ℚ) < endDist 0 0 (([⟨3, 3, 0, 0⟩] : List vector_t).get ⟨k, hk⟩) q) :=
  c3_take_closest [⟨3, 3, 0, 0⟩] 0 0 ⟨0, 0, 3, 3⟩ [] (by
    norm_num [vector_find_closest, findBest, findBestGo, reverseSeg, dist2, bigR])

/-- Witness for the amended C4 at the tie chain `exChain`. -/
theorem c4_witness :
    ∃ hc : 1 < (exChain.take 2).length,
      1 < 2 ∧
      dPrior 0 0 ((exChain.take 2).get ⟨1, hc⟩) ≤ bigR ∧
      (∀ (j : Nat) (hj : j < (exChain.take 2).length),
        dPrior 0 0 ((exChain.take 2).get ⟨1, hc⟩) ≤ dPrior 0 0 ((exChain.take 2).get ⟨j, hj⟩)) ∧
      (∀ (j : Nat) (hj : j < (exChain.take 2).length), 1 < j →
        dPrior 0 0 ((exChain.take 2).get ⟨1, hc⟩) < dPrior 0 0 ((exChain.take 2).get ⟨j, hj⟩)) :=
  c4_prefix_tie_last_wins exChain 2 1 ⟨0, 0, 5, 5⟩ (by simp [exChain])
    (by norm_num [findClosestPrior, closestScan, exChain, dPrior, dist2, bigR])

/-- Witness for C5 at a concrete one-segment store. -/
theorem c5_witness :
    (([⟨0, 0, 1, 1⟩] : List vector_t) = [] →
      ([⟨0, 0, 1, 1⟩] : List vector_t) = [] ∧ (1 : ℚ) = 0 ∧ (1 : ℚ) = 0) ∧
    (∀ w, ([⟨0, 0, 1, 1⟩] : List vector_t).getLast? = some w →
      (1 : ℚ) = w.x2 ∧ (1 : ℚ) = w.y2) :=
  c5_pen_continuity [⟨0, 0, 1, 1⟩] 0 0 [⟨0, 0, 1, 1⟩] 1 1 (by
    norm_num [vector_optimize, vector_optimize_go, vector_find_closest, findBest,
      findBestGo, dist2, bigR])

/-- Witness for C7 at the chain `exChain`, whose relocation step fires with
the transit segment at position 2 and the closest prior segment at
position 1. -/
theorem c7_witness :
    exChain.take 2 = exChain.take 2 ∧
    exChain.get? 2 = some ⟨0, 0, 5, 5⟩ ∧
    (↑((exChain.drop 3).map epair) : Multiset (Multiset (ℚ × ℚ))) =
      ↑(((exChain.eraseIdx 2).drop 2).map epair) ∧
    (∃ px py, vector_optimize ((exChain.eraseIdx 2).drop 2) (5 : ℚ) (5 : ℚ) =
      some (exChain.drop 3, px, py)) :=
  c7_refine_frame exChain 0 0 2 1 ⟨0, 0, 5, 5⟩
    (by norm_num [findLongestTransit, longestScan, exChain, dist2, eps2, eps])
    (by simp [exChain])
    (by norm_num [findClosestPrior, closestScan, exChain, dPrior, dist2, bigR])
    exChain (vector_transit_len exChain - vector_transit_len exChain) 5 5
    (by norm_num [vector_refine, findLongestTransit, longestScan, findClosestPrior,
      closestScan, exChain, dPrior, dist2, eps2, eps, bigR, vector_optimize,
      vector_optimize_go, vector_find_closest, findBest, findBestGo])

/-- Witness for C8 at a concrete fully continuous chain. -/
theorem c8_witness :
    vector_refine [⟨0, 0, 1, 1⟩] 0 0 = some ([⟨0, 0, 1, 1⟩], 0, 0, 0) :=
  c8_refine_noop_on_continuous_chain [⟨0, 0, 1, 1⟩] 0 0 (by
    norm_num [allTransitsZero, dist2, eps2, eps])
